import Mathlib

/-!
Verification of the sorting/benchmark module (`task_3.py`) of the
repository `goit-algo-hw-04`.

The Python functions are shallowly embedded as Lean functions.  Python's
machine-independent `int` is modelled as `ℤ`, Python lists as `List`.
The sorting functions compare elements with `<=` / `>`; to be able to
state stability (the spec's tagging protocol: tag each element with its
original index and sort by the value only) the embeddings are
parametrised by a sort key `k : α → ℤ` and every comparison `x <= y`
of the source becomes `k x ≤ k y`.  Instantiating `k` with the identity
on `ℤ` recovers the source functions verbatim.
-/

namespace Task3

/-- Non-decreasing with respect to the sort key `k` ("sorted ascending"). -/
abbrev SortedK (k : α → ℤ) (l : List α) : Prop :=
  List.Pairwise (fun a b => k a ≤ k b) l

/-- Inner `while` loop of `insertion_sort` (src/task_3.py lines 19-21 plus the
final write of line 22).  The state is the working array `a`; `jp` stands for
`j + 1`, so `jp = 0` means `j = -1` and the loop has stopped.  Source:
`while j >= 0 and a[j] > key: a[j + 1] = a[j]; j -= 1` followed by
`a[j + 1] = key`.  The `getD` default is never reached on in-bounds runs. -/
def innerLoop (k : α → ℤ) (key : α) : List α → ℕ → List α
  | a, 0 => a.set 0 key
  | a, jp + 1 =>
    if k key < k (a.getD jp key) then
      innerLoop k key (a.set (jp + 1) (a.getD jp key)) jp
    else
      a.set (jp + 1) key

/-- Outer `for i in range(1, len(a))` loop of `insertion_sort`
(src/task_3.py lines 16-22), with an explicit fuel that bounds the number of
iterations (the loop runs at most `len(a)` times). -/
def forLoop (k : α → ℤ) : ℕ → ℕ → List α → List α
  | 0, _, a => a
  | fuel + 1, i, a =>
    if h : i < a.length then
      forLoop k fuel (i + 1) (innerLoop k (a.get ⟨i, h⟩) a i)
    else
      a

/-- `insertion_sort` (src/task_3.py lines 13-23): works on a copy `a` of the
argument (the copy is implicit here since Lean lists are values; the aliasing
behaviour is modelled separately by the heap model below). -/
def insertion_sort (k : α → ℤ) (arr : List α) : List α :=
  forLoop k arr.length 1 arr

/-- `_merge` (src/task_3.py lines 37-51): the two-index `while` loop plus the
two final `extend` calls, rendered as structural recursion on the two lists.
Source comparison `left[i] <= right[j]` becomes `k x ≤ k y`. -/
def mergeRuns (k : α → ℤ) : List α → List α → List α
  | [], r => r
  | l, [] => l
  | x :: l, y :: r =>
    if k x ≤ k y then x :: mergeRuns k l (y :: r)
    else y :: mergeRuns k (x :: l) r
termination_by l r => l.length + r.length

/-- `merge_sort` (src/task_3.py lines 26-34): split at `mid = n // 2`,
recursively sort both halves, merge.  Lists of length ≤ 1 are returned
unchanged (the source returns `arr.copy()`, equal as a value). -/
def merge_sort (k : α → ℤ) (arr : List α) : List α :=
  if h : arr.length ≤ 1 then arr
  else
    mergeRuns k (merge_sort k (arr.take (arr.length / 2)))
      (merge_sort k (arr.drop (arr.length / 2)))
termination_by arr.length
decreasing_by
  · simp only [List.length_take]
    omega
  · simp only [List.length_drop]
    omega

/-- Stable one-element insertion into a list, scanning from the left: `x` is
placed before the first element whose key is strictly greater.  This is the
net effect of one pass of `innerLoop` over a sorted prefix (proved below in
`innerLoop_spec`); it is the specification device, not the source text. -/
def ins (k : α → ℤ) (x : α) : List α → List α
  | [] => [x]
  | y :: ys => if k x < k y then x :: y :: ys else y :: ins k x ys

/-- Functional form of the whole insertion sort: fold `ins` over the input.
`insertion_sort` is proved equal to it in `insertion_sort_eq_insFold`. -/
def insFold (k : α → ℤ) (l : List α) : List α :=
  l.foldl (fun acc x => ins k x acc) []

/-- `timsort_sorted` (src/task_3.py lines 54-56) wraps Python's built-in
`sorted()`.  Modelled from the spec: `sorted()` (Timsort) is not part of the
repository source; the spec requires only that it is a stable comparison
sort that does not mutate its input, so it is modelled as the stable
insertion sort `insFold` at the identity key, which has exactly those
properties.  Any stable comparison sort is extensionally the same function. -/
def timsort_sorted (arr : List ℤ) : List ℤ :=
  insFold (fun x => x) arr

/-! ## Heap model (mutation / frame behaviour)

Python lists are heap-allocated objects passed by reference; an element
assignment `a[j] = v` mutates the referenced cell.  The heap is modelled as a
list of cells (`List (List ℤ)`), addresses being indices; allocation appends
a cell.  `insertion_sort` allocates one fresh cell with `a = arr.copy()` and
its loop subscript-assigns only `a` (every write in lines 16-22 targets `a`),
so the net heap effect is one fresh cell holding the sorted copy.
`merge_sort`, `_merge` and `timsort_sorted` contain no subscript assignment
at all (slicing, `append`/`extend` on a fresh `out`, and `sorted()` each
build new lists), so their net effect is likewise one fresh result cell. -/

/-- Read the list stored at address `r` of the heap (default `[]` unused on
valid addresses). -/
def heapGet (h : List (List ℤ)) (r : ℕ) : List ℤ :=
  h.getD r []

/-- Heap-level `insertion_sort`: allocate the copy `a = arr.copy()`, run the
(element-wise, in-place on `a` only) loop, return the heap and the address of
`a`. -/
def insertion_sortH (h : List (List ℤ)) (r : ℕ) : List (List ℤ) × ℕ :=
  (h ++ [insertion_sort (fun x => x) (heapGet h r)], h.length)

/-- Heap-level `merge_sort`: no write to the argument; the result is a fresh
cell. -/
def merge_sortH (h : List (List ℤ)) (r : ℕ) : List (List ℤ) × ℕ :=
  (h ++ [merge_sort (fun x => x) (heapGet h r)], h.length)

/-- Heap-level `timsort_sorted`: `sorted()` reads its argument and allocates
a new list. -/
def timsort_sortedH (h : List (List ℤ)) (r : ℕ) : List (List ℤ) × ℕ :=
  (h ++ [timsort_sorted (heapGet h r)], h.length)

/-! ## Dataset generators (src/task_3.py lines 63-84)

Python's global `random` module is modelled from its documented semantics:
after `random.seed(s)` the module serves a deterministic stream of raw draws.
The stream is a function `g : ℕ → ℕ` together with a cursor `st : ℕ` that
each draw advances by one; `randrange(n)` reduces a raw draw modulo `n` and
raises `ValueError` when the range is empty (`n ≤ 0`), modelled as `none`;
`randint(0, hi)` draws uniformly from the inclusive range `[0, hi]` and
never fails for `hi ≥ 0`. -/

/-- Modelled from Python stdlib semantics: `random.randrange(n)` — `none`
exactly when Python raises `ValueError: empty range for randrange`. -/
def randrange (g : ℕ → ℕ) (st : ℕ) (n : ℤ) : Option (ℤ × ℕ) :=
  if n ≤ 0 then none else some ((g st % n.toNat : ℕ), st + 1)

/-- Draw `cnt` values `randint(0, hi)` in a row (the comprehension of
`make_random`), threading the cursor. -/
def drawList (g : ℕ → ℕ) (st : ℕ) (hi : ℕ) : ℕ → List ℤ × ℕ
  | 0 => ([], st)
  | cnt + 1 =>
    let v : ℤ := (g st % (hi + 1) : ℕ)
    let rest := drawList g (st + 1) hi cnt
    (v :: rest.1, rest.2)

/-- `make_random` (lines 63-64): `[random.randint(0, 10**9) for _ in range(n)]`.
`range(n)` is empty for `n ≤ 0`. -/
def make_random (g : ℕ → ℕ) (st : ℕ) (n : ℤ) : List ℤ × ℕ :=
  drawList g st (10 ^ 9) n.toNat

/-- `make_sorted` (lines 66-67): `list(range(n))`. -/
def make_sorted (n : ℤ) : List ℤ :=
  (List.range n.toNat).map Int.ofNat

/-- `make_reverse` (lines 69-70): `list(range(n, 0, -1))` = `[n, n-1, …, 1]`. -/
def make_reverse (n : ℤ) : List ℤ :=
  (List.range n.toNat).map (fun i => n - i)

/-- Simultaneous assignment `a[i], a[j] = a[j], a[i]` (line 79): both right
hand sides are read from the old list before either write. -/
def swapElems (a : List ℤ) (i j : ℕ) : List ℤ :=
  (a.set i (a.getD j 0)).set j (a.getD i 0)

/-- The swap loop of `make_nearly_sorted` (lines 76-79): each iteration draws
`i = random.randrange(n)` and `j = random.randrange(n)` and swaps. -/
def swapLoop (g : ℕ → ℕ) (st : ℕ) (n : ℤ) (a : List ℤ) :
    ℕ → Option (List ℤ × ℕ)
  | 0 => some (a, st)
  | cnt + 1 =>
    match randrange g st n with
    | none => none
    | some (i, st1) =>
      match randrange g st1 n with
      | none => none
      | some (j, st2) => swapLoop g st2 n (swapElems a i.toNat j.toNat) cnt

/-- `make_nearly_sorted` (lines 72-80).  `swaps = max(1, int(n * swaps_ratio))`:
the float product and `int()` truncation toward zero are modelled over `ℚ`
with `Int.toNat ⌊·⌋`; for `n * ratio < 0` both truncations are swallowed by
`Int.toNat` (result `0`) before `max 1`, and for `n * ratio ≥ 0` `int()` is
the floor, so the model agrees with the source up to the last-ulp rounding of
binary floats, which no claim depends on. -/
def make_nearly_sorted (g : ℕ → ℕ) (st : ℕ) (n : ℤ) (ratio : ℚ) :
    Option (List ℤ × ℕ) :=
  swapLoop g st n (make_sorted n) (max 1 (Int.toNat ⌊(n : ℚ) * ratio⌋))

/-- Draw `cnt` values `randrange(uniq)` in a row (the comprehension of
`make_many_duplicates`). -/
def drawRangeList (g : ℕ → ℕ) (st : ℕ) (uniq : ℤ) :
    ℕ → Option (List ℤ × ℕ)
  | 0 => some ([], st)
  | cnt + 1 =>
    match randrange g st uniq with
    | none => none
    | some (v, st1) =>
      match drawRangeList g st1 uniq cnt with
      | none => none
      | some (rest, st2) => some (v :: rest, st2)

/-- `make_many_duplicates` (lines 82-84):
`[random.randrange(uniques) for _ in range(n)]`. -/
def make_many_duplicates (g : ℕ → ℕ) (st : ℕ) (n : ℤ) (uniq : ℤ) :
    Option (List ℤ × ℕ) :=
  drawRangeList g st uniq n.toNat

/-- Modelled from the spec: the stream of raw draws Python's Mersenne
Twister serves after `random.seed(seed)`.  The twister's internals are not
repository code; all the spec uses is that the stream is a fixed
deterministic function of the seed, which any concrete function of `seed`
exhibits. -/
def mtStream (seed : ℕ) : ℕ → ℕ :=
  fun i => (seed + i + 1) * 2654435761 % 4294967296

/-- `random(n)` as invoked in a freshly seeded process (`random.seed(42)` in
`main` is line 188; here the seed is a parameter): the first generator call
after seeding. -/
def make_randomSeeded (seed : ℕ) (n : ℤ) : List ℤ :=
  (make_random (mtStream seed) 0 n).1

/-- The dataset-generation trace of one benchmark row sweep: for each size
`n` in `ns`, run the five generators in `DATASETS` order (lines 87-93),
threading the PRNG cursor exactly as the process does; `none` if any
generator raises. -/
def datasetsForSize (g : ℕ → ℕ) (st : ℕ) (n : ℤ) :
    Option (List (List ℤ) × ℕ) :=
  let r1 := make_random g st n
  match make_nearly_sorted g r1.2 n (1 / 100) with
  | none => none
  | some (d4, st4) =>
    match make_many_duplicates g st4 n 100 with
    | none => none
    | some (d5, st5) =>
      some ([r1.1, make_sorted n, make_reverse n, d4, d5], st5)

/-- Iterate `datasetsForSize` over the size list, threading the cursor. -/
def datasetsSweep (g : ℕ → ℕ) (st : ℕ) :
    List ℤ → Option (List (List (List ℤ)))
  | [] => some []
  | n :: rest =>
    match datasetsForSize g st n with
    | none => none
    | some (ds, st1) =>
      match datasetsSweep g st1 rest with
      | none => none
      | some more => some (ds :: more)

/-- The full generation trace of a run seeded with `seed` over the size list
`ns`. -/
def run_datasets (seed : ℕ) (ns : List ℤ) : Option (List (List (List ℤ))) :=
  datasetsSweep (mtStream seed) 0 ns

/-! ## Timer (`bench_one`, src/task_3.py lines 100-109)

Modelled from Python stdlib semantics: `timeit.Timer.repeat(repeat, number)`
returns `[t(0), …, t(repeat-1)]`, one elapsed wall-clock time per batch (for
`repeat ≤ 0` the list is empty), where batch `i` runs the thunk `number`
times back to back.  Wall-clock time is not computable, so the elapsed time
of batch `i` is abstracted as an arbitrary `batch : ℕ → ℚ`. -/

/-- `timeit.Timer.repeat(repeat=rep, number=num)`: the list of per-batch
elapsed times.  `num` does not affect the list's shape, only the (abstract)
times. -/
def timeitRepeat (batch : ℕ → ℚ) (rep : ℤ) : List ℚ :=
  (List.range rep.toNat).map batch

/-- `bench_one` (lines 100-109): `runs = timer.repeat(...)` followed by
`return sum(runs) / len(runs) / number`. -/
def bench_one (batch : ℕ → ℚ) (rep : ℤ) (num : ℚ) : ℚ :=
  (timeitRepeat batch rep).sum / (timeitRepeat batch rep).length / num

/-- `bench_one` raises `ZeroDivisionError` exactly when `len(runs) = 0`
(i.e. `repeat ≤ 0`) or when `number = 0`: line 109 divides by both
`len(runs)` and `number` (Lean's total `/` hides the exception, so the
crash condition is modelled separately for the control-flow claims).  A
negative `number` does not crash: `timeit`'s `itertools.repeat(None, number)`
just runs the thunk zero times and the division is by a nonzero value. -/
def bench_oneCrashes (rep num : ℤ) : Bool :=
  rep ≤ 0 ∨ num = 0

/-! ## Benchmark runner (`run_bench`, src/task_3.py lines 112-142) -/

/-- The `algos` table of `run_bench` (lines 114-118), names only. -/
def algoNames : List String :=
  ["Insertion", "Merge", "Timsort(sorted)"]

/-- The initial `times_ms` dict of line 129: every algorithm maps to `None`. -/
def initTimes : List (String × Option ℚ) :=
  [("Insertion", none), ("Merge", none), ("Timsort(sorted)", none)]

/-- `times_ms[name] = v`. -/
def updateTimes (d : List (String × Option ℚ)) (name : String) (v : ℚ) :
    List (String × Option ℚ) :=
  d.map (fun p => if p.1 = name then (name, some v) else p)

/-- `times_ms[name]` (defaulting to `None` for names outside the dict,
which does not occur). -/
def lookupTimes (d : List (String × Option ℚ)) (name : String) : Option ℚ :=
  (d.lookup name).getD none

/-- The `for algo_name, algo in algos` loop of lines 131-136 for one
`(n, dataset)` cell: `continue` when `algo_name == "Insertion" and
n > include_insertion_upper_n`, otherwise store the measured time.
`benchT name` abstracts `bench_one(lambda d=data: algo(d.copy()), ...) * 1000`
for the algorithm called `name`. -/
def rowTimes (benchT : String → ℚ) (n insMax : ℤ) :
    List (String × Option ℚ) :=
  algoNames.foldl
    (fun d name =>
      if name = "Insertion" ∧ n > insMax then d
      else updateTimes d name (benchT name))
    initTimes

/-- The `Insertion` table cell of line 138:
`f"{t:.2f}" if times_ms["Insertion"] is not None else "—"`.  The numeric
branch's float formatting is abstracted as `fmt`; the claims only concern the
`None` branch. -/
def insCell (fmt : ℚ → String) (d : List (String × Option ℚ)) : String :=
  match lookupTimes d "Insertion" with
  | none => "—"
  | some t => fmt t

/-! ## CLI parsing and run outcome (`main`, src/task_3.py lines 186-196) -/

/-- Python strings are modelled as their character lists (`List Char`), so
that all string operations are structural recursions the kernel can
evaluate. -/
abbrev PyStr := List Char

/-- `str.strip()` (and the whitespace stripping done by `int()`): drop
whitespace at both ends. -/
def pyStrip (s : PyStr) : PyStr :=
  ((s.dropWhile Char.isWhitespace).reverse.dropWhile Char.isWhitespace).reverse

/-- `str.split(",")`: split at every comma; `"".split(",") == [""]`. -/
def pySplitComma : PyStr → List PyStr
  | [] => [[]]
  | c :: rest =>
    if c = ',' then [] :: pySplitComma rest
    else
      match pySplitComma rest with
      | [] => [[c]]
      | t :: ts => (c :: t) :: ts

/-- Digit-run parsing for `int()`: nonempty, all decimal digits. -/
def pyIntDigits (ds : List Char) : Option ℤ :=
  if ds ≠ [] ∧ ds.all Char.isDigit then
    some (ds.foldl (fun acc c => acc * 10 + ((c.toNat - 48 : ℕ) : ℤ)) 0)
  else none

/-- Modelled from Python stdlib semantics: `int(s)` on a string — strip
surrounding whitespace, optional single sign, then a nonempty run of decimal
digits; anything else raises `ValueError` (`none`).  (Unicode digits and
underscore group separators, which CPython also accepts, are not modelled;
no claim feeds them.) -/
def pyInt (s : PyStr) : Option ℤ :=
  match pyStrip s with
  | '+' :: ds => pyIntDigits ds
  | '-' :: ds => (pyIntDigits ds).map (fun v => -v)
  | ds => pyIntDigits ds

/-- Line 190: `ns = [int(x) for x in args.sizes.split(",") if x.strip()]`;
`none` when some `int(x)` raises. -/
def parse_sizes (s : PyStr) : Option (List ℤ) :=
  ((pySplitComma s).filter (fun x => pyStrip x ≠ [])).mapM pyInt

/-- Whether the benchmark sweep of `run_bench` (lines 125-142) completes
without an uncaught exception.  Per size `n` the first dataset row already
calls `bench_one` (Merge and Timsort are never skipped), which raises iff
`repeat ≤ 0` or `number = 0` (`bench_oneCrashes`); `make_nearly_sorted`
raises iff `n ≤ 0` (its single mandatory swap calls `randrange(n)`); every
other generator call and sort call is total.  `analyze_scaling` (lines
145-166) hardcodes `repeat=3, number=1` and only uses `make_random`, so it
never raises. -/
def run_bench_ok (ns : List ℤ) (rep num : ℤ) : Bool :=
  ns.all (fun n => bench_oneCrashes rep num = false ∧ ¬n ≤ 0)

/-- Exit behaviour of `main` (lines 186-196): parse the size list (an
uncaught `ValueError` aborts with a traceback and non-zero status, `none`),
run the benchmark (`none` if it raises mid-run), then return exit code 0.
`number = 0` raises `ZeroDivisionError` in `bench_one`'s final division;
a negative `number` merely runs the thunk zero times per batch and the run
exits 0. -/
def mainExit (sizes : PyStr) (rep num : ℤ) (noScaling : Bool) : Option ℤ :=
  match parse_sizes sizes with
  | none => none
  | some ns => if run_bench_ok ns rep num then some 0 else none

/-- Whether any of the report has been printed by the time `main` finishes or
dies: `run_bench` prints its header (lines 121-123) before any timing, so the
report has started whenever parsing succeeded. -/
def reportStarted (sizes : PyStr) : Bool :=
  (parse_sizes sizes).isSome

/-! ## Properties of the stable insertion `ins` -/

theorem ins_perm (k : α → ℤ) (x : α) (l : List α) : (ins k x l).Perm (x :: l) := by
  induction l with
  | nil => simp [ins]
  | cons y ys ih =>
    rw [ins]
    split
    · exact List.Perm.refl _
    · exact (ih.cons y).trans (List.Perm.swap x y ys)

theorem ins_mem (k : α → ℤ) (x b : α) (l : List α) :
    b ∈ ins k x l ↔ b = x ∨ b ∈ l := by
  rw [(ins_perm k x l).mem_iff]
  simp

theorem ins_length (k : α → ℤ) (x : α) (l : List α) :
    (ins k x l).length = l.length + 1 := by
  simpa using (ins_perm k x l).length_eq

theorem ins_sorted (k : α → ℤ) (x : α) {l : List α} (h : SortedK k l) :
    SortedK k (ins k x l) := by
  induction l with
  | nil => simp [ins]
  | cons y ys ih =>
    obtain ⟨h1, h2⟩ := List.pairwise_cons.mp h
    rw [ins]
    split
    · rename_i hlt
      refine List.pairwise_cons.mpr ⟨?_, List.pairwise_cons.mpr ⟨h1, h2⟩⟩
      intro b hb
      rcases List.mem_cons.mp hb with hb | hb
      · exact hb ▸ le_of_lt hlt
      · exact le_trans (le_of_lt hlt) (h1 b hb)
    · rename_i hge
      refine List.pairwise_cons.mpr ⟨?_, ih h2⟩
      intro b hb
      rcases (ins_mem k x b ys).mp hb with hb | hb
      · exact hb ▸ not_lt.mp hge
      · exact h1 b hb

theorem ins_append_of_lt (k : α → ℤ) (x z : α) (q : List α) (hxz : k x < k z) :
    ins k x (q ++ [z]) = ins k x q ++ [z] := by
  induction q with
  | nil => simp [ins, hxz]
  | cons y ys ih =>
    rw [List.cons_append, ins, ins]
    split
    · rfl
    · rw [ih, List.cons_append]

theorem ins_all_le (k : α → ℤ) (x : α) (q : List α) (h : ∀ y ∈ q, k y ≤ k x) :
    ins k x q = q ++ [x] := by
  induction q with
  | nil => rfl
  | cons y ys ih =>
    rw [ins, if_neg (not_lt.mpr (h y (List.mem_cons_self y ys)))]
    rw [ih fun b hb => h b (List.mem_cons_of_mem y hb), List.cons_append]

/-! ## The imperative loops compute `ins` / `insFold` -/

theorem getD_append_cons (xs : List α) (y : α) (zs : List α) (d : α) :
    (xs ++ y :: zs).getD xs.length d = y := by
  induction xs with
  | nil => rfl
  | cons a as ih => simpa using ih

theorem set_append_cons_succ (xs : List α) (y w v : α) (zs : List α) :
    (xs ++ y :: w :: zs).set (xs.length + 1) v = xs ++ y :: v :: zs := by
  induction xs with
  | nil => rfl
  | cons a as ih => simp [ih]

theorem get_append_len (xs : List α) (y : α) (zs : List α)
    (h : xs.length < (xs ++ y :: zs).length) :
    (xs ++ y :: zs).get ⟨xs.length, h⟩ = y := by
  induction xs with
  | nil => rfl
  | cons a as ih => exact ih (by simp)

theorem innerLoop_spec (k : α → ℤ) (x : α) (q : List α) (junk : α)
    (rest : List α) (hs : SortedK k q) :
    innerLoop k x (q ++ junk :: rest) q.length = ins k x q ++ rest := by
  induction q using List.reverseRecOn generalizing junk rest with
  | nil => simp [innerLoop, ins]
  | append_singleton q' z ih =>
    have hq' : SortedK k q' := (List.pairwise_append.mp hs).1
    have harr : (q' ++ [z]) ++ junk :: rest = q' ++ z :: junk :: rest := by simp
    have hlen : (q' ++ [z]).length = q'.length + 1 := by simp
    rw [harr, hlen, innerLoop, getD_append_cons]
    split
    · rename_i hlt
      rw [set_append_cons_succ, ih z (z :: rest) hq',
        ins_append_of_lt k x z q' hlt, List.append_assoc, List.singleton_append]
    · rename_i hge
      have hbound : ∀ y ∈ q' ++ [z], k y ≤ k x := by
        intro y hy
        rcases List.mem_append.mp hy with hy | hy
        · exact le_trans ((List.pairwise_append.mp hs).2.2 y hy z
            (List.mem_singleton_self z)) (not_lt.mp hge)
        · rw [List.mem_singleton.mp hy]
          exact not_lt.mp hge
      rw [set_append_cons_succ, ins_all_le k x (q' ++ [z]) hbound]
      simp

theorem forLoop_spec (k : α → ℤ) (rest : List α) :
    ∀ (p : List α) (fuel : ℕ), SortedK k p → rest.length ≤ fuel →
      forLoop k fuel p.length (p ++ rest) =
        rest.foldl (fun acc x => ins k x acc) p := by
  induction rest with
  | nil =>
    intro p fuel _ _
    match fuel with
    | 0 => simp [forLoop]
    | f + 1 => simp [forLoop]
  | cons x rest' ih =>
    intro p fuel hs hf
    match fuel with
    | 0 => simp at hf
    | f + 1 =>
      rw [forLoop]
      have hlt : p.length < (p ++ x :: rest').length := by simp
      rw [dif_pos hlt, get_append_len, innerLoop_spec k x p x rest' hs,
        List.foldl_cons]
      have hl : (ins k x p).length = p.length + 1 := ins_length k x p
      rw [← hl]
      exact ih (ins k x p) f (ins_sorted k x hs) (by simp at hf; omega)

theorem insertion_sort_eq_insFold (k : α → ℤ) (arr : List α) :
    insertion_sort k arr = insFold k arr := by
  cases arr with
  | nil => rfl
  | cons x xs =>
    show forLoop k (x :: xs).length 1 (x :: xs) = _
    have h1 : (x :: xs) = [x] ++ xs := rfl
    have h2 : (1 : ℕ) = ([x] : List α).length := rfl
    rw [h1, List.length_append, h2,
      forLoop_spec k xs [x] _ (by simp) (by simp)]
    rfl

/-! ## Correctness and stability of `insFold` -/

theorem foldl_ins_perm (k : α → ℤ) (rest : List α) :
    ∀ p : List α, (rest.foldl (fun acc x => ins k x acc) p).Perm (p ++ rest) := by
  induction rest with
  | nil => intro p; simp
  | cons x rest' ih =>
    intro p
    rw [List.foldl_cons]
    exact ((ih (ins k x p)).trans
      (((ins_perm k x p).append_right rest'))).trans List.perm_middle.symm

theorem foldl_ins_sorted (k : α → ℤ) (rest : List α) :
    ∀ p : List α, SortedK k p →
      SortedK k (rest.foldl (fun acc x => ins k x acc) p) := by
  induction rest with
  | nil => intro p hp; simpa using hp
  | cons x rest' ih =>
    intro p hp
    exact ih (ins k x p) (ins_sorted k x hp)

theorem insFold_perm (k : α → ℤ) (l : List α) : (insFold k l).Perm l := by
  simpa using foldl_ins_perm k l []

theorem insFold_sorted (k : α → ℤ) (l : List α) : SortedK k (insFold k l) :=
  foldl_ins_sorted k l [] (List.Pairwise.nil)

theorem filter_keyEq_nil (k : α → ℤ) (c : ℤ) (l : List α)
    (h : ∀ b ∈ l, ¬k b = c) :
    l.filter (fun a => decide (k a = c)) = [] := by
  induction l with
  | nil => rfl
  | cons y ys ih =>
    rw [List.filter_cons,
      if_neg (by simpa using h y (List.mem_cons_self y ys))]
    exact ih fun b hb => h b (List.mem_cons_of_mem y hb)

theorem ins_filter (k : α → ℤ) (x : α) (c : ℤ) (q : List α)
    (hs : SortedK k q) :
    (ins k x q).filter (fun a => decide (k a = c)) =
      if k x = c then q.filter (fun a => decide (k a = c)) ++ [x]
      else q.filter (fun a => decide (k a = c)) := by
  induction q with
  | nil =>
    by_cases hxc : k x = c <;> simp [ins, List.filter, hxc]
  | cons y ys ih =>
    obtain ⟨h1, h2⟩ := List.pairwise_cons.mp hs
    rw [ins]
    split
    · rename_i hlt
      by_cases hxc : k x = c
      · have hnil : (y :: ys).filter (fun a => decide (k a = c)) = [] := by
          refine filter_keyEq_nil k c (y :: ys) ?_
          intro b hb
          rcases List.mem_cons.mp hb with hb | hb
          · subst hb; omega
          · have := h1 b hb; omega
        rw [if_pos hxc, hnil, List.filter_cons, if_pos (by simpa using hxc),
          hnil]
        rfl
      · rw [if_neg hxc, List.filter_cons, if_neg (by simpa using hxc)]
    · rename_i hge
      rw [List.filter_cons, List.filter_cons, ih h2]
      by_cases hxc : k x = c <;> by_cases hyc : k y = c <;>
        simp [hxc, hyc]

theorem foldl_ins_filter (k : α → ℤ) (c : ℤ) (rest : List α) :
    ∀ p : List α, SortedK k p →
      (rest.foldl (fun acc x => ins k x acc) p).filter
          (fun a => decide (k a = c)) =
        p.filter (fun a => decide (k a = c)) ++
          rest.filter (fun a => decide (k a = c)) := by
  induction rest with
  | nil => intro p _; simp
  | cons x rest' ih =>
    intro p hp
    rw [List.foldl_cons, ih (ins k x p) (ins_sorted k x hp),
      ins_filter k x c p hp, List.filter_cons]
    by_cases hxc : k x = c
    · rw [if_pos hxc, if_pos (by simpa using hxc), List.append_assoc,
        List.singleton_append]
    · rw [if_neg hxc, if_neg (by simpa using hxc)]

theorem insFold_filter (k : α → ℤ) (c : ℤ) (l : List α) :
    (insFold k l).filter (fun a => decide (k a = c)) =
      l.filter (fun a => decide (k a = c)) := by
  simpa using foldl_ins_filter k c l [] List.Pairwise.nil

/-! ## Correctness and stability of `mergeRuns` and `merge_sort` -/

theorem mergeRuns_perm (k : α → ℤ) (l : List α) :
    ∀ r : List α, (mergeRuns k l r).Perm (l ++ r) := by
  induction l with
  | nil => intro r; simp [mergeRuns]
  | cons x l ih =>
    intro r
    induction r with
    | nil => simp [mergeRuns]
    | cons y r ihr =>
      rw [mergeRuns]
      split
      · exact (ih (y :: r)).cons x
      · exact (ihr.cons y).trans List.perm_middle.symm

theorem mergeRuns_mem (k : α → ℤ) (l r : List α) (b : α) :
    b ∈ mergeRuns k l r ↔ b ∈ l ∨ b ∈ r := by
  rw [(mergeRuns_perm k l r).mem_iff]
  simp

theorem mergeRuns_sorted (k : α → ℤ) (l : List α) :
    ∀ r : List α, SortedK k l → SortedK k r → SortedK k (mergeRuns k l r) := by
  induction l with
  | nil => intro r _ hr; simpa [mergeRuns] using hr
  | cons x l ih =>
    intro r
    induction r with
    | nil => intro hl _; simpa [mergeRuns] using hl
    | cons y r ihr =>
      intro hl hr
      obtain ⟨hl1, hl2⟩ := List.pairwise_cons.mp hl
      obtain ⟨hr1, hr2⟩ := List.pairwise_cons.mp hr
      rw [mergeRuns]
      split
      · rename_i hxy
        refine List.pairwise_cons.mpr ⟨?_, ih (y :: r) hl2 hr⟩
        intro b hb
        rcases (mergeRuns_mem k l (y :: r) b).mp hb with hb | hb
        · exact hl1 b hb
        · rcases List.mem_cons.mp hb with hb | hb
          · exact hb ▸ hxy
          · exact le_trans hxy (hr1 b hb)
      · rename_i hxy
        have hyx : k y < k x := not_le.mp hxy
        refine List.pairwise_cons.mpr ⟨?_, ihr hl hr2⟩
        intro b hb
        rcases (mergeRuns_mem k (x :: l) r b).mp hb with hb | hb
        · rcases List.mem_cons.mp hb with hb | hb
          · exact hb ▸ le_of_lt hyx
          · exact le_trans (le_of_lt hyx) (hl1 b hb)
        · exact hr1 b hb

theorem mergeRuns_filter (k : α → ℤ) (c : ℤ) (l : List α) :
    ∀ r : List α, SortedK k l →
      (mergeRuns k l r).filter (fun a => decide (k a = c)) =
        l.filter (fun a => decide (k a = c)) ++
          r.filter (fun a => decide (k a = c)) := by
  induction l with
  | nil => intro r _; simp [mergeRuns]
  | cons x l ih =>
    intro r
    induction r with
    | nil => intro _; simp [mergeRuns]
    | cons y r ihr =>
      intro hl
      obtain ⟨hl1, hl2⟩ := List.pairwise_cons.mp hl
      rw [mergeRuns]
      split
      · rename_i hxy
        simp only [List.filter_cons, ih (y :: r) hl2]
        by_cases hxc : k x = c <;> simp [hxc]
      · rename_i hxy
        have hyx : k y < k x := not_le.mp hxy
        simp only [List.filter_cons, ihr hl]
        by_cases hyc : k y = c
        · have hxc : ¬k x = c := by omega
          have hlnil : l.filter (fun a => decide (k a = c)) = [] := by
            refine filter_keyEq_nil k c l ?_
            intro b hb
            have := hl1 b hb
            omega
          simp [hyc, hxc, hlnil]
        · simp [hyc]

theorem merge_sort_perm_aux (k : α → ℤ) :
    ∀ (n : ℕ) (arr : List α), arr.length ≤ n →
      (merge_sort k arr).Perm arr := by
  intro n
  induction n with
  | zero =>
    intro arr h
    rw [merge_sort, dif_pos (by omega)]
  | succ n ih =>
    intro arr h
    rw [merge_sort]
    split
    · exact List.Perm.refl arr
    · rename_i hlen
      have h2 : 2 ≤ arr.length := by omega
      have ht : (arr.take (arr.length / 2)).length ≤ n := by
        simp only [List.length_take]
        omega
      have hd : (arr.drop (arr.length / 2)).length ≤ n := by
        simp only [List.length_drop]
        omega
      have e1 := mergeRuns_perm k (merge_sort k (arr.take (arr.length / 2)))
        (merge_sort k (arr.drop (arr.length / 2)))
      have e2 := (ih _ ht).append (ih _ hd)
      have e3 : arr.take (arr.length / 2) ++ arr.drop (arr.length / 2) = arr :=
        List.take_append_drop _ arr
      refine (e1.trans e2).trans ?_
      rw [e3]

theorem merge_sort_perm (k : α → ℤ) (arr : List α) :
    (merge_sort k arr).Perm arr :=
  merge_sort_perm_aux k arr.length arr le_rfl

theorem merge_sort_sorted_aux (k : α → ℤ) :
    ∀ (n : ℕ) (arr : List α), arr.length ≤ n →
      SortedK k (merge_sort k arr) := by
  intro n
  induction n with
  | zero =>
    intro arr h
    rw [merge_sort, dif_pos (by omega)]
    have : arr = [] := List.length_eq_zero.mp (by omega)
    subst this
    exact List.Pairwise.nil
  | succ n ih =>
    intro arr h
    rw [merge_sort]
    split
    · rename_i hle
      match arr, hle with
      | [], _ => exact List.Pairwise.nil
      | [a], _ => exact List.pairwise_singleton _ a
    · rename_i hlen
      have ht : (arr.take (arr.length / 2)).length ≤ n := by
        simp only [List.length_take]
        omega
      have hd : (arr.drop (arr.length / 2)).length ≤ n := by
        simp only [List.length_drop]
        omega
      exact mergeRuns_sorted k _ _ (ih _ ht) (ih _ hd)

theorem merge_sort_sorted (k : α → ℤ) (arr : List α) :
    SortedK k (merge_sort k arr) :=
  merge_sort_sorted_aux k arr.length arr le_rfl

theorem merge_sort_filter_aux (k : α → ℤ) (c : ℤ) :
    ∀ (n : ℕ) (arr : List α), arr.length ≤ n →
      (merge_sort k arr).filter (fun a => decide (k a = c)) =
        arr.filter (fun a => decide (k a = c)) := by
  intro n
  induction n with
  | zero =>
    intro arr h
    rw [merge_sort, dif_pos (by omega)]
  | succ n ih =>
    intro arr h
    rw [merge_sort]
    split
    · rfl
    · rename_i hlen
      have ht : (arr.take (arr.length / 2)).length ≤ n := by
        simp only [List.length_take]
        omega
      have hd : (arr.drop (arr.length / 2)).length ≤ n := by
        simp only [List.length_drop]
        omega
      rw [mergeRuns_filter k c _ _ (merge_sort_sorted k _), ih _ ht, ih _ hd,
        ← List.filter_append, List.take_append_drop]

theorem merge_sort_filter (k : α → ℤ) (c : ℤ) (arr : List α) :
    (merge_sort k arr).filter (fun a => decide (k a = c)) =
      arr.filter (fun a => decide (k a = c)) :=
  merge_sort_filter_aux k c arr.length arr le_rfl

/-! ## Insertion sort: top-level correctness -/

theorem insertion_sort_perm (k : α → ℤ) (arr : List α) :
    (insertion_sort k arr).Perm arr := by
  rw [insertion_sort_eq_insFold]
  exact insFold_perm k arr

theorem insertion_sort_sorted (k : α → ℤ) (arr : List α) :
    SortedK k (insertion_sort k arr) := by
  rw [insertion_sort_eq_insFold]
  exact insFold_sorted k arr

theorem insertion_sort_filter (k : α → ℤ) (c : ℤ) (arr : List α) :
    (insertion_sort k arr).filter (fun a => decide (k a = c)) =
      arr.filter (fun a => decide (k a = c)) := by
  rw [insertion_sort_eq_insFold]
  exact insFold_filter k c arr

/-- Two sorted permutations of each other are equal (the relation `≤` on `ℤ`
is antisymmetric); used for idempotence and for the extensional agreement of
the three algorithms. -/
theorem sorted_perm_unique (l₁ l₂ : List ℤ)
    (hp : l₁.Perm l₂) (h1 : SortedK (fun x => x) l₁)
    (h2 : SortedK (fun x => x) l₂) : l₁ = l₂ := by
  haveI : IsAntisymm ℤ (fun a b => (fun x : ℤ => x) a ≤ (fun x : ℤ => x) b) :=
    ⟨fun a b hab hba => le_antisymm hab hba⟩
  exact List.eq_of_perm_of_sorted hp h1 h2

/-! ## Helper facts for the heap model, generators and timer -/

theorem heapGet_append (h : List (List ℤ)) (x : List ℤ) :
    ∀ r : ℕ, r < h.length → heapGet (h ++ [x]) r = heapGet h r := by
  induction h with
  | nil => intro r hr; simp at hr
  | cons a as ih =>
    intro r hr
    match r with
    | 0 => rfl
    | r' + 1 => exact ih r' (by simpa using hr)

theorem drawList_length (g : ℕ → ℕ) (hi : ℕ) :
    ∀ (cnt st : ℕ), (drawList g st hi cnt).1.length = cnt := by
  intro cnt
  induction cnt with
  | zero => intro st; rfl
  | succ c ih => intro st; simp [drawList, ih]

theorem drawRangeList_isSome (g : ℕ → ℕ) (uniq : ℤ) (hu : 0 < uniq) :
    ∀ (cnt st : ℕ), (drawRangeList g st uniq cnt).isSome := by
  intro cnt
  induction cnt with
  | zero => intro st; rfl
  | succ c ih =>
    intro st
    have hus : ¬uniq ≤ 0 := by omega
    simp only [drawRangeList, randrange, if_neg hus]
    obtain ⟨p, hp⟩ := Option.isSome_iff_exists.mp (ih (st + 1))
    obtain ⟨rest, st2⟩ := p
    rw [hp]
    rfl

theorem swapLoop_isSome (g : ℕ → ℕ) (n : ℤ) (hn : 0 < n) :
    ∀ (cnt st : ℕ) (a : List ℤ), (swapLoop g st n a cnt).isSome := by
  intro cnt
  induction cnt with
  | zero => intro st a; rfl
  | succ c ih =>
    intro st a
    have hns : ¬n ≤ 0 := by omega
    simp only [swapLoop, randrange, if_neg hns]
    exact ih _ _

theorem make_nearly_sorted_none (g : ℕ → ℕ) (st : ℕ) (n : ℤ) (ratio : ℚ)
    (hn : n ≤ 0) : make_nearly_sorted g st n ratio = none := by
  rw [make_nearly_sorted]
  obtain ⟨m, hm⟩ : ∃ m, max 1 (Int.toNat ⌊(n : ℚ) * ratio⌋) = m + 1 :=
    ⟨max 1 (Int.toNat ⌊(n : ℚ) * ratio⌋) - 1, by omega⟩
  rw [hm, swapLoop, randrange, if_pos hn]

/-! ## The claims -/

/-- C1: for every finite list of integers, `insertion_sort` and `merge_sort`
each return a list that is a permutation of the input and is sorted in
non-decreasing order. -/
theorem task3_sorts_are_sorted_permutations (l : List ℤ) :
    ((insertion_sort (fun x => x) l).Perm l ∧
      SortedK (fun x => x) (insertion_sort (fun x => x) l)) ∧
    ((merge_sort (fun x => x) l).Perm l ∧
      SortedK (fun x => x) (merge_sort (fun x => x) l)) :=
  ⟨⟨insertion_sort_perm _ l, insertion_sort_sorted _ l⟩,
   ⟨merge_sort_perm _ l, merge_sort_sorted _ l⟩⟩

/-- C2: `insertion_sort` and `merge_sort` are stable: elements with equal
sort key keep their input order — equivalently, filtering the output to any
one key value yields exactly the input filtered to that value; and in
`_merge` (`mergeRuns`) of two sorted halves the left half wins ties (its
equal-key elements all precede the right half's). -/
theorem task3_sorts_are_stable (k : α → ℤ) (l : List α) (c : ℤ) :
    (insertion_sort k l).filter (fun a => decide (k a = c)) =
        l.filter (fun a => decide (k a = c)) ∧
    (merge_sort k l).filter (fun a => decide (k a = c)) =
        l.filter (fun a => decide (k a = c)) ∧
    (∀ lft rgt : List α, SortedK k lft →
      (mergeRuns k lft rgt).filter (fun a => decide (k a = c)) =
        lft.filter (fun a => decide (k a = c)) ++
          rgt.filter (fun a => decide (k a = c))) :=
  ⟨insertion_sort_filter k c l, merge_sort_filter k c l,
   fun lft rgt hs => mergeRuns_filter k c lft rgt hs⟩

/-- Witness for C2 at concrete tagged inputs (value, original index). -/
theorem task3_sorts_are_stable_witness :
    (insertion_sort (fun p : ℤ × ℕ => p.1) [(1, 0), (1, 1), (0, 2)]).filter
        (fun a => decide (a.1 = 1)) =
      ([(1, 0), (1, 1), (0, 2)] : List (ℤ × ℕ)).filter
        (fun a => decide (a.1 = 1)) ∧
    (merge_sort (fun p : ℤ × ℕ => p.1) [(1, 0), (1, 1), (0, 2)]).filter
        (fun a => decide (a.1 = 1)) =
      ([(1, 0), (1, 1), (0, 2)] : List (ℤ × ℕ)).filter
        (fun a => decide (a.1 = 1)) ∧
    (mergeRuns (fun p : ℤ × ℕ => p.1) [(1, 0)] [(1, 1)]).filter
        (fun a => decide (a.1 = 1)) =
      ([(1, 0)] : List (ℤ × ℕ)).filter (fun a => decide (a.1 = 1)) ++
        ([(1, 1)] : List (ℤ × ℕ)).filter (fun a => decide (a.1 = 1)) := by
  refine ⟨(task3_sorts_are_stable (fun p : ℤ × ℕ => p.1)
      [(1, 0), (1, 1), (0, 2)] 1).1,
    (task3_sorts_are_stable (fun p : ℤ × ℕ => p.1)
      [(1, 0), (1, 1), (0, 2)] 1).2.1,
    (task3_sorts_are_stable (fun p : ℤ × ℕ => p.1)
      [(1, 0), (1, 1), (0, 2)] 1).2.2 [(1, 0)] [(1, 1)] (by decide)⟩

/-- C3: each sorting routine returns a fresh sequence and leaves the
caller's list unchanged: in the heap model, after the call the caller's
cell `r` still holds its original contents and the returned address is a
different (freshly allocated) cell. -/
theorem task3_sorts_do_not_mutate_input (h : List (List ℤ)) (r : ℕ)
    (hr : r < h.length) :
    (heapGet (insertion_sortH h r).1 r = heapGet h r ∧
      (insertion_sortH h r).2 ≠ r) ∧
    (heapGet (merge_sortH h r).1 r = heapGet h r ∧
      (merge_sortH h r).2 ≠ r) ∧
    (heapGet (timsort_sortedH h r).1 r = heapGet h r ∧
      (timsort_sortedH h r).2 ≠ r) := by
  refine ⟨⟨heapGet_append h _ r hr, ?_⟩, ⟨heapGet_append h _ r hr, ?_⟩,
    ⟨heapGet_append h _ r hr, ?_⟩⟩ <;>
  · show h.length ≠ r
    omega

/-- Witness for C3 on a concrete one-cell heap. -/
theorem task3_sorts_do_not_mutate_input_witness :
    (heapGet (insertion_sortH [[3, 1, 2]] 0).1 0 = heapGet [[3, 1, 2]] 0 ∧
      (insertion_sortH [[3, 1, 2]] 0).2 ≠ 0) ∧
    (heapGet (merge_sortH [[3, 1, 2]] 0).1 0 = heapGet [[3, 1, 2]] 0 ∧
      (merge_sortH [[3, 1, 2]] 0).2 ≠ 0) ∧
    (heapGet (timsort_sortedH [[3, 1, 2]] 0).1 0 = heapGet [[3, 1, 2]] 0 ∧
      (timsort_sortedH [[3, 1, 2]] 0).2 ≠ 0) :=
  task3_sorts_do_not_mutate_input [[3, 1, 2]] 0 (by decide)

/-- C9: all three sorting functions are idempotent: sorting an already
sorted output changes nothing. -/
theorem task3_sorts_idempotent (l : List ℤ) :
    insertion_sort (fun x => x) (insertion_sort (fun x => x) l) =
        insertion_sort (fun x => x) l ∧
    merge_sort (fun x => x) (merge_sort (fun x => x) l) =
        merge_sort (fun x => x) l ∧
    timsort_sorted (timsort_sorted l) = timsort_sorted l := by
  refine ⟨?_, ?_, ?_⟩
  · exact sorted_perm_unique _ _ (insertion_sort_perm _ _)
      (insertion_sort_sorted _ _) (insertion_sort_sorted _ _)
  · exact sorted_perm_unique _ _ (merge_sort_perm _ _)
      (merge_sort_sorted _ _) (merge_sort_sorted _ _)
  · exact sorted_perm_unique _ _ (insFold_perm _ _)
      (insFold_sorted _ _) (insFold_sorted _ _)

/-- C10: the three sorting implementations agree extensionally on every
list of integers (each returns the unique sorted permutation of its
input). -/
theorem task3_sorts_extensionally_equal (l : List ℤ) :
    insertion_sort (fun x => x) l = merge_sort (fun x => x) l ∧
    merge_sort (fun x => x) l = timsort_sorted l := by
  refine ⟨?_, ?_⟩
  · exact sorted_perm_unique _ _
      ((insertion_sort_perm _ l).trans (merge_sort_perm _ l).symm)
      (insertion_sort_sorted _ l) (merge_sort_sorted _ l)
  · exact sorted_perm_unique _ _
      ((merge_sort_perm _ l).trans (insFold_perm _ l).symm)
      (merge_sort_sorted _ l) (insFold_sorted _ l)

/-- C4 counterexample: `make_nearly_sorted(0)` raises `ValueError` (here:
returns `none`) — `swaps = max(1, int(0 * 0.01)) = 1`, so the loop calls
`random.randrange(0)` on an empty range.  The claim "no generator raises for
any n ≥ 0 and n = 0 yields an empty sequence" is therefore false. -/
theorem task3_nearly_sorted_raises_at_zero :
    make_nearly_sorted (fun i => i) 0 0 (1 / 100) = none := by
  simp [make_nearly_sorted, swapLoop, randrange, make_sorted]

/-- C4 amended: `make_random`, `make_sorted`, `make_reverse` and
`make_many_duplicates` are total for every n ≥ 0 and return an empty
sequence at n = 0 (`make_many_duplicates` needs its `uniques` parameter
positive, as its default 100 is); `make_nearly_sorted` is total only for
n ≥ 1 and raises `ValueError` for every n ≤ 0, because `max(1, ...)` forces
at least one swap and the swap calls `randrange(n)` on an empty range. -/
theorem task3_generators_totality_amended (g : ℕ → ℕ) (st : ℕ)
    (n uniq : ℤ) :
    (make_random g st 0).1 = [] ∧
    make_sorted 0 = [] ∧
    make_reverse 0 = [] ∧
    make_many_duplicates g st 0 uniq = some ([], st) ∧
    (make_random g st n).1.length = n.toNat ∧
    (0 < uniq → (make_many_duplicates g st n uniq).isSome) ∧
    (0 < n → (make_nearly_sorted g st n (1 / 100)).isSome) ∧
    (n ≤ 0 → make_nearly_sorted g st n (1 / 100) = none) := by
  refine ⟨rfl, rfl, rfl, rfl, drawList_length g _ n.toNat st, ?_, ?_, ?_⟩
  · intro hu
    exact drawRangeList_isSome g uniq hu n.toNat st
  · intro hn
    exact swapLoop_isSome g n hn _ st _
  · intro hn
    exact make_nearly_sorted_none g st n _ hn

/-- Witness for C4 (amended) at concrete inputs. -/
theorem task3_generators_totality_amended_witness :
    (make_random (fun i => i) 0 3).1.length = (3 : ℤ).toNat ∧
    (make_many_duplicates (fun i => i) 0 3 100).isSome ∧
    (make_nearly_sorted (fun i => i) 0 3 (1 / 100)).isSome ∧
    make_nearly_sorted (fun i => i) 0 (-2) (1 / 100) = none :=
  ⟨(task3_generators_totality_amended (fun i => i) 0 3 100).2.2.2.2.1,
   (task3_generators_totality_amended (fun i => i) 0 3 100).2.2.2.2.2.1
     (by decide),
   (task3_generators_totality_amended (fun i => i) 0 3 100).2.2.2.2.2.2.1
     (by decide),
   (task3_generators_totality_amended (fun i => i) 0 (-2) 100).2.2.2.2.2.2.2
     (by decide)⟩

/-- C5 counterexample: an empty size list does NOT abort the run — `main`
parses `""` to `ns = []`, the benchmark loop body never runs, and the
process completes with exit status 0 (after printing the header-only
report), contradicting "aborts with a descriptive message and a non-zero
exit status". -/
theorem task3_empty_sizes_exits_zero :
    mainExit [] 3 1 false = some 0 := by decide

/-- C5 amended: only non-numeric size entries abort the run before any
timing or output, via the uncaught `ValueError` of `int()` (non-zero exit,
nothing printed).  An empty size list is accepted and the run exits 0 with
a header-only report.  Negative entries parse fine and crash only later,
inside dataset generation (`make_nearly_sorted`), after part of the report
has been printed.  `repeat ≤ 0` and `number = 0` each crash with
`ZeroDivisionError` during the first timing (`sum(runs) / len(runs) /
number` at line 109), after the header has been printed; a negative
`number`, by contrast, is accepted (zero thunk runs per batch) and the run
exits 0.  (There is no `InvalidConfiguration` class in the code.) -/
theorem task3_config_error_handling_amended (sizes : PyStr) (rep num : ℤ)
    (b : Bool) :
    (parse_sizes sizes = none →
      mainExit sizes rep num b = none ∧ reportStarted sizes = false) ∧
    mainExit [] rep num b = some 0 ∧
    (pyInt (['a', 'b', 'c'] : PyStr) = none ∧
      mainExit ['a', 'b', 'c'] rep num b = none) ∧
    (mainExit ['-', '5'] 3 1 b = none ∧
      reportStarted ['-', '5'] = true) ∧
    (mainExit ['2', '0'] 0 1 b = none ∧
      reportStarted ['2', '0'] = true) ∧
    (mainExit ['2', '0'] 3 0 b = none ∧
      reportStarted ['2', '0'] = true) ∧
    mainExit ['2', '0'] 3 (-1) b = some 0 := by
  refine ⟨?_, rfl, ⟨rfl, rfl⟩, ⟨rfl, rfl⟩, ⟨rfl, rfl⟩, ⟨rfl, rfl⟩, rfl⟩
  intro hp
  rw [mainExit, reportStarted, hp]
  exact ⟨rfl, rfl⟩

/-- Witness for C5 (amended): the general clause applied to a concrete
non-numeric size list. -/
theorem task3_config_error_handling_amended_witness :
    mainExit ['x', ',', 'y'] 3 1 false = none ∧
    reportStarted ['x', ',', 'y'] = false :=
  (task3_config_error_handling_amended ['x', ',', 'y'] 3 1 false).1
    (by decide)

/-- C6: for a row of size n with n > ins_max the runner skips insertion
sort (its `times_ms` entry stays `None` and the cell renders the "—"
marker, never "0.00"); for n ≤ ins_max insertion sort is timed (the entry
holds the measured value).  Merge is always timed. -/
theorem task3_insertion_ceiling (benchT : String → ℚ) (fmt : ℚ → String)
    (n insMax : ℤ) :
    (n > insMax →
      lookupTimes (rowTimes benchT n insMax) "Insertion" = none ∧
      insCell fmt (rowTimes benchT n insMax) = "—" ∧
      insCell fmt (rowTimes benchT n insMax) ≠ "0.00") ∧
    (n ≤ insMax →
      lookupTimes (rowTimes benchT n insMax) "Insertion" =
        some (benchT "Insertion")) ∧
    lookupTimes (rowTimes benchT n insMax) "Merge" =
      some (benchT "Merge") := by
  have e1 : (("Merge" : String) == "Insertion") = false := rfl
  have e2 : (("Merge" : String) == "Merge") = true := rfl
  by_cases hn : n > insMax
  · refine ⟨fun _ => ?_, fun hle => absurd hn (not_lt.mpr hle), ?_⟩
    · simp [rowTimes, algoNames, initTimes, updateTimes, lookupTimes,
        insCell, hn]
    · simp [rowTimes, algoNames, initTimes, updateTimes, lookupTimes,
        List.lookup, e1, e2, hn]
  · refine ⟨fun hgt => absurd hgt hn, fun _ => ?_, ?_⟩
    · simp [rowTimes, algoNames, initTimes, updateTimes, lookupTimes, hn]
    · simp [rowTimes, algoNames, initTimes, updateTimes, lookupTimes,
        List.lookup, e1, e2, hn]

/-- Witness for C6 at a size above and a size below the default ceiling. -/
theorem task3_insertion_ceiling_witness :
    (lookupTimes (rowTimes (fun _ => 0) 25000 20000) "Insertion" = none ∧
      insCell (fun _ => "0.00") (rowTimes (fun _ => 0) 25000 20000) = "—" ∧
      insCell (fun _ => "0.00") (rowTimes (fun _ => 0) 25000 20000) ≠
        "0.00") ∧
    lookupTimes (rowTimes (fun _ => 0) 1000 20000) "Insertion" =
      some ((fun _ => (0 : ℚ)) "Insertion") :=
  ⟨(task3_insertion_ceiling (fun _ => 0) (fun _ => "0.00") 25000 20000).1
      (by decide),
   (task3_insertion_ceiling (fun _ => 0) (fun _ => "0.00") 1000 20000).2.1
      (by decide)⟩

/-- C7: dataset generation is deterministic in the seed: the whole
generation trace, and in particular `make_random(1000)` right after
seeding, is a function of the seed alone (the model's PRNG stream carries
no other input), so equal seeds give identical datasets. -/
theorem task3_generation_deterministic (s₁ s₂ : ℕ) (ns : List ℤ) (n : ℤ)
    (hs : s₁ = s₂) :
    run_datasets s₁ ns = run_datasets s₂ ns ∧
    make_randomSeeded s₁ n = make_randomSeeded s₂ n := by
  subst hs
  exact ⟨rfl, rfl⟩

/-- Witness for C7: two runs with the fixed seed 42 of the source. -/
theorem task3_generation_deterministic_witness :
    run_datasets 42 [3] = run_datasets 42 [3] ∧
    make_randomSeeded 42 1000 = make_randomSeeded 42 1000 :=
  task3_generation_deterministic 42 42 [3] 1000 rfl

/-- C8: `bench_one` returns `sum(batch_times) / repeat / number`, where the
batch times are the elapsed times of the `repeat` batches that
`timeit.Timer.repeat` measures (each batch running the thunk `number`
times). -/
theorem task3_bench_one_formula (batch : ℕ → ℚ) (rep : ℤ) (num : ℚ)
    (hrep : 0 < rep) :
    bench_one batch rep num =
      (timeitRepeat batch rep).sum / (rep : ℚ) / num := by
  have hl : (((timeitRepeat batch rep).length : ℕ) : ℚ) = (rep : ℚ) := by
    simp only [timeitRepeat, List.length_map, List.length_range]
    exact_mod_cast congrArg (fun z : ℤ => (z : ℚ))
      (Int.toNat_of_nonneg (le_of_lt hrep))
  rw [bench_one, hl]

/-- Witness for C8 with two unit batches. -/
theorem task3_bench_one_formula_witness :
    bench_one (fun _ => 1) 2 1 =
      (timeitRepeat (fun _ => 1) 2).sum / ((2 : ℤ) : ℚ) / 1 :=
  task3_bench_one_formula (fun _ => 1) 2 1 (by decide)

end Task3
